import Mathlib

/-!
Verification of the neaspell core speller and text parser.

Rust strings are modelled as `List Char` (sequences of Unicode scalar
values); byte positions used by the source are recovered through
`utf8_len`, the UTF-8 byte length of such a sequence.  The Unicode
character predicates of the Rust standard library (`char::is_lowercase`,
`char::is_uppercase`, `char::is_alphabetic`, `char::is_whitespace`,
`str::to_lowercase`) are external collaborators of the core; they are
modelled as an abstract table `UnicodeTable`, so every theorem holds for
any instantiation of those predicates.  `char::is_ascii_digit` has a
fixed meaning and is modelled concretely.
-/

/-- Strings of the source, as lists of Unicode scalar values. -/
abbrev Str := List Char

/-- Abstract table for the Unicode character predicates of the Rust
standard library used by the core speller. -/
structure UnicodeTable where
  isLower : Char → Bool
  isUpper : Char → Bool
  isAlphabetic : Char → Bool
  isWhitespace : Char → Bool
  toLowerStr : Str → Str

/-- UTF-8 byte length of one scalar value, as Rust `char::len_utf8`. -/
def char_utf8_len (c : Char) : Nat :=
  if c.toNat < 0x80 then 1
  else if c.toNat < 0x800 then 2
  else if c.toNat < 0x10000 then 3
  else 4

/-- UTF-8 byte length of a string: what `str::len` returns in the source. -/
def utf8_len (s : Str) : Nat := (s.map char_utf8_len).sum

/-- Rust `char::is_ascii_digit`. -/
def is_ascii_digit (c : Char) : Bool := '0' ≤ c && c ≤ '9'

/-- `CharCase` of core_speller.rs: the casing possibilities of a word. -/
inductive CharCase where
  | Lower
  | Initial
  | Upper
  | Other
deriving DecidableEq, Repr

/-- `FlagFormat` of core_speller.rs: parsed value of the FLAG tag. -/
inductive FlagFormat where
  | SingleChar
  | SingleUni
  | DoubleChar
  | Numeric
deriving DecidableEq, Repr

/-- `FlagType` of core_speller.rs. -/
inductive FlagType where
  | FlagAffix
  | FlagAf
  | FlagCompRule
  | FlagCompound
  | FlagCompBegin
  | FlagCompLast
  | FlagCompMid
  | FlagCompEnd
  | FlagOnlyComp
  | FlagCompPermit
  | FlagCompForbid
  | FlagCompRoot
  | FlagNeedAffix
  | FlagCircumfix
  | FlagForbidden
  | FlagSubstandard
  | FlagNoSuggest
  | FlagKeepCase
  | FlagForceUcase
  | FlagWarn
  | FlagLemma
deriving DecidableEq, Repr

/-- `TokenType` of core_speller.rs. -/
inductive TokenType where
  | NotWord
  | IsWord
  | IsGoodWord
  | IsBadWord
deriving DecidableEq, Repr

/-- `CLEAN_REGEX_PAIRS` of core_speller.rs: legacy wrappers removed from a
condition before compilation. -/
def clean_regex_pairs : List (Str × Str) :=
  [("(^".toList, ")".toList), (".+".toList, "".toList), ("^".toList, "".toList)]

/-- `Regex` of core_speller.rs: the compiled condition. -/
structure Regex where
  rgx_def : Str
  rgx_vec : List (Str × Bool)
  rgx_error : Option (Str × Nat)
deriving DecidableEq, Repr

/-- The wrapper-stripping step at the head of `Regex::new`: the first pair
of `CLEAN_REGEX_PAIRS` that brackets the definition is removed. -/
def strip_clean_pair (s : Str) : Str :=
  match clean_regex_pairs.find? (fun pr => pr.1.isPrefixOf s && pr.2.isSuffixOf s) with
  | some pr => (s.drop pr.1.length).take (s.length - pr.2.length - pr.1.length)
  | none => s

/-- The character loop of `Regex::new`.  State: characters left, then the
mutable locals `in_brackets`, `is_included`, `bracket_chars`, `pos`,
`rgx_vec`, `rgx_error` in order of appearance in the source. -/
def regex_scan : List Char → Bool → Bool → Str → Nat → List (Str × Bool) →
    Option (Str × Nat) → List (Str × Bool) × Option (Str × Nat)
  | [], _inB, _inc, _bchars, _pos, vec, err => (vec, err)
  | c :: rest, inB, inc, bchars, pos0, vec, err =>
    let pos := pos0 + 1
    if c == '[' then
      let err1 := if inB then some ("Open brackets ([) inside brackets in regex".toList, pos) else err
      regex_scan rest true true bchars pos vec err1
    else if c == '.' then
      if !inB then
        regex_scan rest inB inc bchars pos (vec ++ [([], false)]) err
      else
        regex_scan rest inB inc bchars pos vec (some ("Dot (.) inside brackets in regex".toList, pos))
    else if c == ']' then
      let err1 := if !inB then some ("Close brackets (]) not within brackets in regex".toList, pos) else err
      regex_scan rest false inc [] pos (vec ++ [(bchars, inc)]) err1
    else if c == '^' then
      if inB && inc then
        regex_scan rest inB false bchars pos vec err
      else
        regex_scan rest inB inc bchars pos vec (some ("Unexpected caron (^) in regex".toList, pos))
    else
      if inB then
        regex_scan rest inB inc (bchars ++ [c]) pos vec err
      else if ("\x7b\x7d*+?()".toList.contains c) then
        regex_scan rest inB inc bchars pos vec (some ("Unexpected character in regex".toList, pos))
      else
        regex_scan rest inB inc bchars pos (vec ++ [([c], true)]) err

/-- `Regex::new` of core_speller.rs. -/
def Regex.new (rgxDef : Str) : Regex :=
  let rgxClean := strip_clean_pair rgxDef
  let scanned := regex_scan rgxClean false true [] 0 [] none
  { rgx_def := rgxDef, rgx_vec := scanned.1, rgx_error := scanned.2 }

/-- `Regex::match_edge` of core_speller.rs.  The length guard of the
source compares the atom count with `s.len()`, the UTF-8 byte length. -/
def Regex.match_edge (r : Regex) (s : Str) (isPre : Bool) : Bool :=
  if r.rgx_error.isSome then false
  else if r.rgx_vec.length > utf8_len s then false
  else if isPre then
    (r.rgx_vec.zip s).all (fun p => p.1.1.contains p.2 == p.1.2)
  else
    (r.rgx_vec.reverse.zip s.reverse).all (fun p => p.1.1.contains p.2 == p.1.2)

/-- C3, the claim as stated, is false: the guard of `match_edge` compares
the atom count with the byte length of the string, not its character
count.  The two-atom condition `..` matches the one-character string `á`
(2 bytes) at the start edge. -/
theorem c3_match_edge_counterexample :
    (Regex.new ("..".toList)).rgx_vec.length = 2 ∧
    (['á'] : Str).length = 1 ∧
    (Regex.new ("..".toList)).rgx_vec.length > (['á'] : Str).length ∧
    (Regex.new ("..".toList)).match_edge ['á'] true = true := by
  decide

/-- C3 amended: if the atom count of a compiled condition exceeds the
UTF-8 byte length of the string, `match_edge` returns false for both
anchor directions. -/
theorem c3_match_edge_atom_bound (d s : Str) (b : Bool)
    (h : (Regex.new d).rgx_vec.length > utf8_len s) :
    (Regex.new d).match_edge s b = false := by
  unfold Regex.match_edge
  by_cases he : (Regex.new d).rgx_error.isSome
  · simp [he]
  · simp [he, h]

/-- Witness for the amended C3: the condition `ab` against the
one-byte string `x`. -/
theorem c3_match_edge_atom_bound_witness :
    (Regex.new ("ab".toList)).rgx_vec.length > utf8_len ("x".toList) ∧
    (Regex.new ("ab".toList)).match_edge ("x".toList) true = false :=
  ⟨by decide, c3_match_edge_atom_bound ("ab".toList) ("x".toList) true (by decide)⟩

/-- `AffixEntry` of core_speller.rs: a parsed PFX or SFX non-first line. -/
structure AffixEntry where
  afe_sub : Str
  afe_add : Str
  afe_next_flags : List Str
  afe_cond : Regex
  afe_morph : List Str
  afe_ix : Nat
deriving DecidableEq, Repr

/-- `AffixEntry::new` of core_speller.rs. -/
def AffixEntry.new (sub add : Str) (nextFlags : List Str) (cond : Str) : AffixEntry :=
  { afe_sub := sub, afe_add := add, afe_next_flags := nextFlags,
    afe_cond := Regex.new cond, afe_morph := [], afe_ix := 0 }

/-- `AffixClass` of core_speller.rs: an affix group. -/
structure AffixClass where
  afc_name : Str
  afc_ix : Nat
  afc_is_pre : Bool
  afc_circum : Bool
  afc_size : Nat
  afc_affixes : List AffixEntry
  afc_prev_flags : List Nat
deriving DecidableEq, Repr

/-- `FlaggedWord` of core_speller.rs: one word with flags from a dic file. -/
structure FlaggedWord where
  flw_char_case : CharCase
  flw_word : Str
  flw_flags : List Str
deriving DecidableEq, Repr

/-- `DicEntry` of core_speller.rs: one line from a dic file. -/
structure DicEntry where
  den_line_no : Nat
  den_source : Str
  den_words : List FlaggedWord
deriving DecidableEq, Repr

/-- Association-list lookup: the first binding of the key, as
`HashMap::get` on a map whose keys are unique. -/
def alist_find {β : Type} (m : List (Str × β)) (k : Str) : Option β :=
  match m with
  | [] => none
  | (k', v) :: rest => if k' == k then some v else alist_find rest k

/-- Association-list insert that replaces the value stored under an
existing key, as `HashMap::insert`. -/
def alist_insert {β : Type} (m : List (Str × β)) (k : Str) (v : β) : List (Str × β) :=
  match m with
  | [] => [(k, v)]
  | (k', v') :: rest => if k' == k then (k, v) :: rest else (k', v') :: alist_insert rest k v

/-- `SpellLang` of core_speller.rs, restricted to the fields read or
written by the operations modelled here (the remaining fields of the
source are suggestion/compound options never consulted by them). -/
structure SpellLang where
  slg_mode_flags : Nat
  slg_flag : FlagFormat
  slg_wordchar_digits : Bool
  slg_wordchars : List Char
  slg_prefix_max : Nat
  slg_suffix_max : Nat
  slg_aff_groups : List AffixClass
  slg_flag_hash : List (Str × (FlagType × Nat))
  slg_affix_ct : Nat
  slg_dic_hash : List (Str × DicEntry)
  slg_dic_duplicated : Nat
deriving DecidableEq, Repr

/-- `SpellLang::new` of core_speller.rs, on the modelled fields. -/
def spell_lang_new : SpellLang :=
  { slg_mode_flags := 0, slg_flag := FlagFormat.SingleUni,
    slg_wordchar_digits := false, slg_wordchars := [],
    slg_prefix_max := 1, slg_suffix_max := 2,
    slg_aff_groups := [], slg_flag_hash := [], slg_affix_ct := 0,
    slg_dic_hash := [], slg_dic_duplicated := 0 }

/-- `Spell::is_non_alphabetic_in_word` of core_speller.rs. -/
def is_non_alphabetic_in_word (L : SpellLang) (c : Char) : Bool :=
  L.slg_wordchar_digits && is_ascii_digit c || L.slg_wordchars.contains c

/-- `Spell::in_word_or_optional` of core_speller.rs. -/
def in_word_or_optional (U : UnicodeTable) (L : SpellLang) (c : Char) : Bool :=
  U.isAlphabetic c || is_non_alphabetic_in_word L c

/-- The loop of `Spell::tokenize`.  The source walks `match_indices` over
the characters failing `in_word_or_optional`; each match is a single
character, and the byte range between two matches is the run of word
characters between them.  `acc` holds the current word run reversed
(the text between `last_ix` and the next match). -/
def tokenize_go (U : UnicodeTable) (L : SpellLang) : Str → Str → List (Str × TokenType)
  | [], acc => if acc.isEmpty then [] else [(acc.reverse, TokenType.IsWord)]
  | c :: rest, acc =>
    if in_word_or_optional U L c then tokenize_go U L rest (c :: acc)
    else
      (if acc.isEmpty then [] else [(acc.reverse, TokenType.IsWord)]) ++
        ([c], TokenType.NotWord) :: tokenize_go U L rest []

/-- `Spell::tokenize` of core_speller.rs. -/
def tokenize (U : UnicodeTable) (L : SpellLang) (untokenizedText : Str) : List (Str × TokenType) :=
  tokenize_go U L untokenizedText []

/-- Concatenation of the text fields of a token vector. -/
def concat_texts (ts : List (Str × TokenType)) : Str := (ts.map Prod.fst).flatten

/-- An instantiation of the Unicode table with the ASCII behaviour of the
standard predicates, used for concrete witnesses. -/
def asciiU : UnicodeTable :=
  { isLower := Char.isLower, isUpper := Char.isUpper,
    isAlphabetic := Char.isAlpha,
    isWhitespace := fun c => c == ' ' || c == '\t',
    toLowerStr := fun s => s.map Char.toLower }

theorem tokenize_go_concat (U : UnicodeTable) (L : SpellLang) :
    ∀ (s acc : Str), concat_texts (tokenize_go U L s acc) = acc.reverse ++ s := by
  intro s
  induction s with
  | nil =>
    intro acc
    by_cases h : acc.isEmpty
    · simp [tokenize_go, h, concat_texts, List.isEmpty_iff.mp h]
    · simp [tokenize_go, h, concat_texts]
  | cons c rest ih =>
    intro acc
    by_cases hw : in_word_or_optional U L c
    · have := ih (c :: acc)
      simp [tokenize_go, hw] at this ⊢
      simpa using this
    · by_cases h : acc.isEmpty
      · simp [tokenize_go, hw, h, concat_texts] at ih ⊢
        simpa [List.isEmpty_iff.mp h] using ih []
      · simp [tokenize_go, hw, h, concat_texts] at ih ⊢
        simpa using ih []

theorem tokenize_go_tokens (U : UnicodeTable) (L : SpellLang) :
    ∀ (s acc : Str), ∀ t ∈ tokenize_go U L s acc,
      (t.2 = TokenType.IsWord → t.1 ≠ []) ∧
      (t.2 = TokenType.NotWord → t.1.length = 1) ∧
      (t.2 = TokenType.IsWord ∨ t.2 = TokenType.NotWord) := by
  intro s
  induction s with
  | nil =>
    intro acc t ht
    by_cases h : acc.isEmpty
    · simp [tokenize_go, h] at ht
    · simp [tokenize_go, h] at ht
      subst ht
      refine ⟨fun _ => ?_, by simp, by simp⟩
      simpa using fun hc => h (by simp [hc])
  | cons c rest ih =>
    intro acc t ht
    by_cases hw : in_word_or_optional U L c
    · simp only [tokenize_go, hw, if_pos] at ht
      exact ih (c :: acc) t ht
    · simp only [tokenize_go, hw, if_neg, Bool.false_eq_true, not_false_iff] at ht
      rcases List.mem_append.mp ht with hl | hr
      · by_cases h : acc.isEmpty
        · simp [h] at hl
        · simp [h] at hl
          subst hl
          refine ⟨fun _ => ?_, by simp, by simp⟩
          simpa using fun hc => h (by simp [hc])
      · rcases List.mem_cons.mp hr with he | hm
        · subst he
          exact ⟨by simp, fun _ => by simp, by simp⟩
        · exact ih [] t hm

theorem tokenize_go_chain (U : UnicodeTable) (L : SpellLang) :
    ∀ (s acc : Str),
      List.Chain' (fun a b : Str × TokenType =>
        ¬(a.2 = TokenType.IsWord ∧ b.2 = TokenType.IsWord)) (tokenize_go U L s acc) := by
  intro s
  induction s with
  | nil =>
    intro acc
    by_cases h : acc.isEmpty <;> simp [tokenize_go, h]
  | cons c rest ih =>
    intro acc
    by_cases hw : in_word_or_optional U L c
    · simpa only [tokenize_go, hw, if_pos] using ih (c :: acc)
    · simp only [tokenize_go, hw, Bool.false_eq_true, if_neg, not_false_iff]
      by_cases h : acc.isEmpty
      · simp only [h, if_pos, List.nil_append]
        refine List.chain'_cons'.mpr ⟨?_, ih []⟩
        intro y _
        simp
      · simp only [h, Bool.false_eq_true, if_neg, not_false_iff, List.cons_append,
          List.nil_append, List.singleton_append]
        refine List.chain'_cons.mpr ⟨by simp, ?_⟩
        refine List.chain'_cons'.mpr ⟨?_, ih []⟩
        intro y _
        simp

/-- C4, the claim as stated, is false: the tokenizer emits each
separator character as its own NotWord pair, so a run of two separators
yields two consecutive NotWord pairs and the kinds do not alternate. -/
theorem c4_tokenize_counterexample :
    tokenize asciiU spell_lang_new ['!', '!'] =
      [(['!'], TokenType.NotWord), (['!'], TokenType.NotWord)] ∧
    ¬ List.Chain' (fun a b : Str × TokenType => a.2 ≠ b.2)
      (tokenize asciiU spell_lang_new ['!', '!']) := by
  constructor
  · decide
  · intro h
    rw [show tokenize asciiU spell_lang_new ['!', '!'] =
        [(['!'], TokenType.NotWord), (['!'], TokenType.NotWord)] from by decide] at h
    exact (List.chain'_cons.mp h).1 rfl

/-- C4 amended: for every language and input, the tokenizer emits no
pair with empty text, never emits two consecutive Word pairs, and every
NotWord pair holds exactly one character (so runs of separators appear
as consecutive single-character NotWord pairs rather than alternating
with Word pairs). -/
theorem c4_tokenize_shape (U : UnicodeTable) (L : SpellLang) (s : Str) :
    (∀ t ∈ tokenize U L s, t.1 ≠ []) ∧
    List.Chain' (fun a b : Str × TokenType =>
      ¬(a.2 = TokenType.IsWord ∧ b.2 = TokenType.IsWord)) (tokenize U L s) ∧
    (∀ t ∈ tokenize U L s, t.2 = TokenType.NotWord → t.1.length = 1) := by
  refine ⟨?_, tokenize_go_chain U L s [], ?_⟩
  · intro t ht
    obtain ⟨hword, hnot, hcase⟩ := tokenize_go_tokens U L s [] t ht
    rcases hcase with h | h
    · exact hword h
    · have := hnot h
      intro hnil
      rw [hnil] at this
      simp at this
  · intro t ht
    exact (tokenize_go_tokens U L s [] t ht).2.1

/-- Witness for the amended C4 applied at a concrete input. -/
theorem c4_tokenize_shape_witness :
    (['a'], TokenType.IsWord) ∈ tokenize asciiU spell_lang_new ['a'] ∧
    (['a'] : Str) ≠ [] :=
  ⟨by decide, (c4_tokenize_shape asciiU spell_lang_new ['a']).1 (['a'], TokenType.IsWord) (by decide)⟩

/-- The character loop of `CharCase::normalize_case`.  State: characters
left, then the mutable locals `first_lower_or_none`, `next_lower_or_none`,
`is_first`, `any_lower`, `any_upper`. -/
def case_scan (U : UnicodeTable) : List Char → Bool → Bool → Bool → Bool → Bool →
    Bool × Bool × Bool × Bool
  | [], firstL, nextL, _isF, anyL, anyU => (firstL, nextL, anyL, anyU)
  | ch :: rest, firstL, nextL, isF, anyL, anyU =>
    if U.isLower ch then
      case_scan U rest firstL nextL false true anyU
    else if U.isUpper ch then
      if isF then case_scan U rest false nextL false anyL true
      else case_scan U rest firstL false false anyL true
    else
      case_scan U rest firstL nextL false anyL anyU

/-- `CharCase::normalize_case` of core_speller.rs. -/
def normalize_case (U : UnicodeTable) (word : Str) : CharCase × Str :=
  match case_scan U word true true true false false with
  | (firstL, nextL, anyL, anyU) =>
    if nextL then
      if firstL then (CharCase.Lower, word)
      else (CharCase.Initial, U.toLowerStr word)
    else
      if anyL && anyU then (CharCase.Other, word)
      else (CharCase.Upper, U.toLowerStr word)

/-- `FlaggedWord::new` of core_speller.rs. -/
def FlaggedWord.new (U : UnicodeTable) (word : Str) (flags : List Str) : FlaggedWord :=
  match normalize_case U word with
  | (cc, w) => { flw_char_case := cc, flw_word := w, flw_flags := flags }

/-- Test of the `ModeFlag::TestCompat` bit, as
`(slg_mode_flags as u32 & ModeFlag::TestCompat as u32) != 0`. -/
def test_compat (L : SpellLang) : Bool := L.slg_mode_flags.land 1 != 0

/-- `Spell::word_present` of core_speller.rs.  The source indexes
`den_words[0]`; entries stored by the parser always hold at least one
word, and the unreachable empty case is mapped to a non-match. -/
def word_present (L : SpellLang) (charCase : CharCase) (word : Str) (flag : Option Str) : Bool :=
  match alist_find L.slg_dic_hash word with
  | some dictEntry =>
    match dictEntry.den_words with
    | [] => false
    | fw :: _ =>
      let dictCase := fw.flw_char_case
      if dictCase = CharCase.Upper ∧ charCase = CharCase.Initial then false
      else if (dictCase = CharCase.Upper ∨ dictCase = CharCase.Initial) ∧
          test_compat L = true ∧ charCase = CharCase.Lower then false
      else
        match flag with
        | some f => fw.flw_flags.contains f
        | none => true
  | none => false

/-- `Spell::is_substring_at_edge` of core_speller.rs. -/
def is_substring_at_edge (word substring : Str) (isPre : Bool) : Bool :=
  if isPre then substring.isPrefixOf word else substring.isSuffixOf word

mutual
/-- `Spell::check_decased_word` of core_speller.rs.  The two `for` loops
of the source are the companion functions `cd_groups` (over affix
groups) and `cd_entries` (over the entries of one group); `continue`
is advancing to the tail of the list and early `return true` is a
true branch. -/
def check_decased_word (U : UnicodeTable) (L : SpellLang) (charCase : CharCase) (word : Str)
    (ixSubset : Option (List Nat)) (prefixCt suffixCt : Nat) : Bool :=
  if word_present L charCase word none && ixSubset.isNone then true
  else cd_groups U L charCase word ixSubset prefixCt suffixCt L.slg_aff_groups
termination_by (L.slg_prefix_max + L.slg_suffix_max + 1 - (prefixCt + suffixCt), 3, 0)

/-- The outer loop of `check_decased_word` over the affix groups. -/
def cd_groups (U : UnicodeTable) (L : SpellLang) (charCase : CharCase) (word : Str)
    (ixSubset : Option (List Nat)) (prefixCt suffixCt : Nat) : List AffixClass → Bool
  | [] => false
  | g :: gs =>
    let newPre := if g.afc_is_pre then prefixCt + 1 else prefixCt
    let newSuf := if g.afc_is_pre then suffixCt else suffixCt + 1
    if h : newPre > L.slg_prefix_max ∨ newSuf > L.slg_suffix_max then
      cd_groups U L charCase word ixSubset prefixCt suffixCt gs
    else if (newPre == 2 || newSuf == 2) &&
        (match ixSubset with
         | some subset => !(subset.contains g.afc_ix)
         | none => false) then
      cd_groups U L charCase word ixSubset prefixCt suffixCt gs
    else if cd_entries U L charCase word g newPre newSuf
        ⟨Nat.le_of_not_lt (fun hh => h (Or.inl hh)), Nat.le_of_not_lt (fun hh => h (Or.inr hh))⟩
        g.afc_affixes then true
    else cd_groups U L charCase word ixSubset prefixCt suffixCt gs
termination_by gs => (L.slg_prefix_max + L.slg_suffix_max + 1 - (prefixCt + suffixCt), 2, gs.length)
decreasing_by
  all_goals simp_wf
  all_goals first
  | (apply Prod.Lex.right
     apply Prod.Lex.right
     omega)
  | (apply Prod.Lex.left
     have hA : newPre = if g.afc_is_pre then prefixCt + 1 else prefixCt := rfl
     have hB : newSuf = if g.afc_is_pre then suffixCt else suffixCt + 1 := rfl
     rw [hA, hB] at h
     by_cases hp : g.afc_is_pre = true <;> simp [hp] at h ⊢ <;> omega)

/-- The inner loop of `check_decased_word` over the entries of group `g`.
`hps` records the loop guard (already checked by `cd_groups`) that the
new prefix and suffix counts are within bounds; it only justifies
termination and is erased at run time. -/
def cd_entries (U : UnicodeTable) (L : SpellLang) (charCase : CharCase) (word : Str)
    (g : AffixClass) (newPre newSuf : Nat)
    (hps : newPre ≤ L.slg_prefix_max ∧ newSuf ≤ L.slg_suffix_max) : List AffixEntry → Bool
  | [] => false
  | e :: es =>
    if !(is_substring_at_edge word e.afe_add g.afc_is_pre) then
      cd_entries U L charCase word g newPre newSuf hps es
    else
      let baseWord := if g.afc_is_pre then e.afe_sub ++ word.drop e.afe_add.length
                      else word.take (word.length - e.afe_add.length) ++ e.afe_sub
      let p := if charCase = CharCase.Other then normalize_case U baseWord else (charCase, baseWord)
      if !(e.afe_cond.match_edge p.2 g.afc_is_pre) then
        cd_entries U L charCase word g newPre newSuf hps es
      else if word_present L p.1 p.2 (some g.afc_name) then true
      else if check_decased_word U L p.1 p.2 (some g.afc_prev_flags) newPre newSuf then true
      else cd_entries U L charCase word g newPre newSuf hps es
termination_by es => (L.slg_prefix_max + L.slg_suffix_max + 1 - (newPre + newSuf), 4, es.length)
end

/-- Rust `str::trim_matches` with a predicate: characters satisfying the
predicate are removed from both ends. -/
def trim_matches_pred (p : Char → Bool) (s : Str) : Str :=
  ((s.dropWhile p).reverse.dropWhile p).reverse

/-- `Spell::check_token` of core_speller.rs. -/
def check_token (U : UnicodeTable) (L : SpellLang) (word : Str) : Bool :=
  if utf8_len word == 0 then true
  else
    let p := normalize_case U word
    let result := check_decased_word U L p.1 p.2 none 0 0
    if !result then
      let trimmedWord := trim_matches_pred (fun c => is_non_alphabetic_in_word L c) p.2
      check_decased_word U L p.1 trimmedWord none 0 0
    else result

/-- `Spell::check_text` of core_speller.rs. -/
def check_text (U : UnicodeTable) (L : SpellLang) (untokenizedText : Str) :
    List (Str × TokenType) :=
  (tokenize U L untokenizedText).map (fun t =>
    if utf8_len t.1 == 0 || t.2 != TokenType.IsWord then t
    else (t.1, if check_token U L t.1 then TokenType.IsGoodWord else TokenType.IsBadWord))

/-- C5: concatenating, in order, the text fields of `check_text` (and
equally of `tokenize`) reproduces the input string exactly. -/
theorem c5_concat_round_trip (U : UnicodeTable) (L : SpellLang) (s : Str) :
    concat_texts (check_text U L s) = s ∧ concat_texts (tokenize U L s) = s := by
  have htok : concat_texts (tokenize U L s) = s := by
    simpa using tokenize_go_concat U L s []
  refine ⟨?_, htok⟩
  have hmap : (check_text U L s).map Prod.fst = (tokenize U L s).map Prod.fst := by
    unfold check_text
    rw [List.map_map]
    refine List.map_congr_left ?_
    intro t _
    simp only [Function.comp_apply]
    by_cases h : (utf8_len t.1 == 0 || t.2 != TokenType.IsWord) = true
    · rw [if_pos h]
    · rw [if_neg h]
  unfold concat_texts at htok ⊢
  rw [hmap, htok]

theorem case_scan_shift (U : UnicodeTable) :
    ∀ (l : List Char) (firstL nextL anyL anyU : Bool),
      case_scan U l firstL nextL false anyL anyU =
        (firstL, nextL && !(l.any (fun c => !U.isLower c && U.isUpper c)),
         anyL || l.any U.isLower, anyU || l.any (fun c => !U.isLower c && U.isUpper c)) := by
  intro l
  induction l with
  | nil => intro firstL nextL anyL anyU; simp [case_scan]
  | cons c rest ih =>
    intro firstL nextL anyL anyU
    by_cases hl : U.isLower c = true
    · simp [case_scan, hl, ih]
    · by_cases hu : U.isUpper c = true
      · simp [case_scan, hl, hu, ih]
      · simp [case_scan, hl, hu, ih]

theorem any_eff_upper (U : UnicodeTable)
    (hdisj : ∀ c, U.isLower c = true → U.isUpper c = false) :
    ∀ l : List Char, l.any (fun c => !U.isLower c && U.isUpper c) = l.any U.isUpper := by
  intro l
  induction l with
  | nil => rfl
  | cons x xs ihx =>
    have heffx : (!U.isLower x && U.isUpper x) = U.isUpper x := by
      by_cases hl : U.isLower x = true
      · simp [hl, hdisj x hl]
      · simp [hl]
    simp [List.any_cons, heffx, ihx]

theorem normalize_case_characterization (U : UnicodeTable)
    (hdisj : ∀ c, U.isLower c = true → U.isUpper c = false) :
    ∀ w : Str, normalize_case U w =
      match w with
      | [] => (CharCase.Lower, ([] : Str))
      | c :: rest =>
        if rest.any U.isUpper = true then
          (if (c :: rest).any U.isLower = true then (CharCase.Other, c :: rest)
           else (CharCase.Upper, U.toLowerStr (c :: rest)))
        else if U.isUpper c = true then (CharCase.Initial, U.toLowerStr (c :: rest))
        else (CharCase.Lower, c :: rest) := by
  have heff : ∀ c, (!U.isLower c && U.isUpper c) = U.isUpper c := by
    intro c
    by_cases hl : U.isLower c = true
    · simp [hl, hdisj c hl]
    · simp [hl]
  intro w
  match w with
  | [] => simp [normalize_case, case_scan]
  | c :: rest =>
    have hany : (rest.any (fun c => !U.isLower c && U.isUpper c)) = rest.any U.isUpper :=
      any_eff_upper U hdisj rest
    by_cases hl : U.isLower c = true
    · have hu : U.isUpper c = false := hdisj c hl
      simp only [normalize_case, case_scan, hl, if_pos, if_true]
      rw [case_scan_shift, hany]
      by_cases hr : rest.any U.isUpper = true
      · simp [hr, hl, hu]
      · simp [hr, hl, hu]
    · by_cases hu : U.isUpper c = true
      · simp only [normalize_case, case_scan, hl, hu, Bool.false_eq_true, if_false, if_true,
          reduceIte]
        rw [case_scan_shift, hany]
        by_cases hr : rest.any U.isUpper = true
        · by_cases ha : rest.any U.isLower = true
          · simp [hr, ha, hl, hu]
          · simp [hr, ha, hl, hu]
        · simp [hr, hl, hu]
      · simp only [normalize_case, case_scan, hl, hu, Bool.false_eq_true, if_false, reduceIte]
        rw [case_scan_shift, hany]
        by_cases hr : rest.any U.isUpper = true
        · by_cases ha : rest.any U.isLower = true
          · simp [hr, ha, hl, hu]
          · simp [hr, ha, hl, hu]
        · simp [hr, hl, hu]

theorem normalize_case_cons (U : UnicodeTable)
    (hdisj : ∀ c, U.isLower c = true → U.isUpper c = false) (c : Char) (rest : List Char) :
    normalize_case U (c :: rest) =
      if rest.any U.isUpper = true then
        (if (c :: rest).any U.isLower = true then (CharCase.Other, c :: rest)
         else (CharCase.Upper, U.toLowerStr (c :: rest)))
      else if U.isUpper c = true then (CharCase.Initial, U.toLowerStr (c :: rest))
      else (CharCase.Lower, c :: rest) :=
  normalize_case_characterization U hdisj (c :: rest)

/-- C6: `normalize_case` classifies a word as Lower (key unchanged) when
no scalar is uppercase; as Initial (key lowercased) when the first
scalar is uppercase and the rest are not; as Upper (key lowercased)
when no scalar is lowercase and some scalar is uppercase, unless the
Initial clause already applied; as Other (key unchanged) otherwise;
and the returned key holds no uppercase scalar whenever the returned
case is not Other.  The Unicode hypotheses state that no scalar is both
lowercase and uppercase and that lowercasing yields no uppercase
scalar. -/
theorem c6_normalize_case_spec (U : UnicodeTable)
    (hdisj : ∀ c, U.isLower c = true → U.isUpper c = false)
    (htab : ∀ s, ∀ c ∈ U.toLowerStr s, U.isUpper c = false)
    (w : Str) :
    ((∀ c ∈ w, U.isUpper c = false) → normalize_case U w = (CharCase.Lower, w)) ∧
    (∀ c rest, w = c :: rest → U.isUpper c = true → (∀ d ∈ rest, U.isUpper d = false) →
      normalize_case U w = (CharCase.Initial, U.toLowerStr w)) ∧
    ((∀ c ∈ w, U.isLower c = false) → (∃ c ∈ w, U.isUpper c = true) →
      ¬(∃ c rest, w = c :: rest ∧ U.isUpper c = true ∧ ∀ d ∈ rest, U.isUpper d = false) →
      normalize_case U w = (CharCase.Upper, U.toLowerStr w)) ∧
    (¬(∀ c ∈ w, U.isUpper c = false) →
      ¬(∃ c rest, w = c :: rest ∧ U.isUpper c = true ∧ ∀ d ∈ rest, U.isUpper d = false) →
      ¬((∀ c ∈ w, U.isLower c = false) ∧ ∃ c ∈ w, U.isUpper c = true) →
      normalize_case U w = (CharCase.Other, w)) ∧
    ((normalize_case U w).1 ≠ CharCase.Other →
      ∀ c ∈ (normalize_case U w).2, U.isUpper c = false) := by
  have hch := normalize_case_characterization U hdisj w
  match w with
  | [] =>
    refine ⟨fun _ => hch, ?_, ?_, ?_, ?_⟩
    · intro c rest hcr
      cases hcr
    · rintro _ ⟨c, hc, _⟩
      cases hc
    · intro h1
      exact absurd (by intro c hc; cases hc) h1
    · intro _ c hc
      rw [hch] at hc
      cases hc
  | c :: rest =>
    have hch := normalize_case_cons U hdisj c rest
    by_cases hr : rest.any U.isUpper = true
    · by_cases ha : (c :: rest).any U.isLower = true
      · rw [if_pos hr, if_pos ha] at hch
        obtain ⟨d, hd, hdu⟩ := List.any_eq_true.mp hr
        obtain ⟨e, he, hel⟩ := List.any_eq_true.mp ha
        refine ⟨?_, ?_, ?_, fun _ _ _ => hch, ?_⟩
        · intro hno
          exact absurd (hno d (List.mem_cons_of_mem c hd)) (by simp [hdu])
        · intro c' rest' hceq hcu hrestu
          cases hceq
          exact absurd (hrestu d hd) (by simp [hdu])
        · intro hnl _ _
          exact absurd (hnl e he) (by simp [hel])
        · intro hno
          rw [hch] at hno
          simp at hno
      · rw [if_pos hr, if_neg ha] at hch
        obtain ⟨d, hd, hdu⟩ := List.any_eq_true.mp hr
        refine ⟨?_, ?_, fun _ _ _ => hch, ?_, ?_⟩
        · intro hno
          exact absurd (hno d (List.mem_cons_of_mem c hd)) (by simp [hdu])
        · intro c' rest' hceq hcu hrestu
          cases hceq
          exact absurd (hrestu d hd) (by simp [hdu])
        · intro _ _ hmix
          exfalso
          refine hmix ⟨?_, ⟨d, List.mem_cons_of_mem c hd, hdu⟩⟩
          intro x hx
          by_contra hxl
          exact ha (List.any_eq_true.mpr ⟨x, hx, by simpa using hxl⟩)
        · intro _
          rw [hch]
          exact htab (c :: rest)
    · by_cases hc : U.isUpper c = true
      · rw [if_neg hr, if_pos hc] at hch
        have hrestno : ∀ d ∈ rest, U.isUpper d = false := by
          intro d hd
          by_contra hdu
          exact hr (List.any_eq_true.mpr ⟨d, hd, by simpa using hdu⟩)
        refine ⟨?_, fun _ _ _ _ _ => hch, ?_, ?_, ?_⟩
        · intro hno
          exact absurd (hno c (List.mem_cons_self c rest)) (by simp [hc])
        · intro _ _ hnI
          exact absurd ⟨c, rest, rfl, hc, hrestno⟩ hnI
        · intro _ hnI _
          exact absurd ⟨c, rest, rfl, hc, hrestno⟩ hnI
        · intro _
          rw [hch]
          exact htab (c :: rest)
      · rw [if_neg hr, if_neg hc] at hch
        have hno : ∀ d ∈ (c :: rest), U.isUpper d = false := by
          intro d hd
          rcases List.mem_cons.mp hd with h | h
          · subst h
            simpa using hc
          · by_contra hdu
            exact hr (List.any_eq_true.mpr ⟨d, h, by simpa using hdu⟩)
        refine ⟨fun _ => hch, ?_, ?_, ?_, ?_⟩
        · intro c' rest' hceq hcu _
          cases hceq
          exact absurd hcu (by simp [hc])
        · rintro _ ⟨e, he, heu⟩ _
          exact absurd (hno e he) (by simp [heu])
        · intro hnall _ _
          exact absurd hno hnall
        · intro _
          rw [hch]
          exact hno

/-- A two-letter casing table used to witness the classifier theorems. -/
def toyLowerChar (c : Char) : Char :=
  if c == 'A' then 'a' else if c == 'B' then 'b' else c

/-- A concrete Unicode table with alphabet a, b, A, B for witnesses. -/
def toyU : UnicodeTable :=
  { isLower := fun c => c == 'a' || c == 'b',
    isUpper := fun c => c == 'A' || c == 'B',
    isAlphabetic := fun c => c == 'a' || c == 'b' || c == 'A' || c == 'B',
    isWhitespace := fun c => c == ' ',
    toLowerStr := fun s => s.map toyLowerChar }

theorem toyU_disj : ∀ c, toyU.isLower c = true → toyU.isUpper c = false := by
  intro c h
  simp only [toyU, Bool.or_eq_true, beq_iff_eq] at h ⊢
  rcases h with h | h <;> subst h <;> decide

theorem toyU_tab : ∀ s, ∀ c ∈ toyU.toLowerStr s, toyU.isUpper c = false := by
  intro s c hc
  simp only [toyU] at hc ⊢
  obtain ⟨b, _, rfl⟩ := List.mem_map.mp hc
  by_cases hb1 : b = 'A'
  · subst hb1; decide
  · by_cases hb2 : b = 'B'
    · subst hb2; decide
    · simp [toyLowerChar, hb1, hb2]

/-- Witness for C6, applied at the Initial-case clause on the word AB
over the toy table. -/
theorem c6_normalize_case_spec_witness :
    toyU.isUpper 'A' = true ∧ (∀ d ∈ (['b'] : List Char), toyU.isUpper d = false) ∧
    normalize_case toyU ['A', 'b'] = (CharCase.Initial, toyU.toLowerStr ['A', 'b']) := by
  refine ⟨by decide, by decide, ?_⟩
  exact (c6_normalize_case_spec toyU toyU_disj toyU_tab ['A', 'b']).2.1 'A' ['b'] rfl
    (by decide) (by decide)

/-- C7: the case gating of `word_present`.  With a stored entry whose
first flagged word has case Upper, an Initial surface rejects; under
TestCompat an Upper or Initial stored case rejects a Lower surface;
with TestCompat cleared a Lower surface against an Upper or Initial
stored case is decided by the flag check alone, not by case. -/
theorem c7_word_present_case_gating (L : SpellLang) (cc : CharCase) (word : Str)
    (flag : Option Str) (e : DicEntry) (fw : FlaggedWord) (rest : List FlaggedWord)
    (hfind : alist_find L.slg_dic_hash word = some e)
    (hwords : e.den_words = fw :: rest) :
    (fw.flw_char_case = CharCase.Upper → cc = CharCase.Initial →
      word_present L cc word flag = false) ∧
    (test_compat L = true →
      (fw.flw_char_case = CharCase.Upper ∨ fw.flw_char_case = CharCase.Initial) →
      cc = CharCase.Lower → word_present L cc word flag = false) ∧
    (test_compat L = false →
      (fw.flw_char_case = CharCase.Upper ∨ fw.flw_char_case = CharCase.Initial) →
      cc = CharCase.Lower →
      word_present L cc word flag =
        (match flag with | some f => fw.flw_flags.contains f | none => true)) := by
  unfold word_present
  simp only [hfind, hwords]
  refine ⟨?_, ?_, ?_⟩
  · intro hU hI
    subst hI
    simp [hU]
  · intro htc hUI hL
    subst hL
    rw [if_neg (by simp), if_pos ⟨hUI, htc, rfl⟩]
  · intro htc hUI hL
    subst hL
    rw [if_neg (by simp), if_neg (by simp [htc])]

/-- Dictionary entry for the witness of C7: an all-uppercase word. -/
def dic_entry_ab : DicEntry :=
  { den_line_no := 1, den_source := "AB".toList,
    den_words := [{ flw_char_case := CharCase.Upper, flw_word := "ab".toList, flw_flags := [] }] }

/-- Language for the witness of C7 holding `dic_entry_ab` under key ab. -/
def lang_ab : SpellLang :=
  { spell_lang_new with slg_dic_hash := [("ab".toList, dic_entry_ab)] }

/-- Witness for C7: the Upper-against-Initial rejection at a concrete
language and word. -/
theorem c7_word_present_case_gating_witness :
    alist_find lang_ab.slg_dic_hash ("ab".toList) = some dic_entry_ab ∧
    word_present lang_ab CharCase.Initial ("ab".toList) none = false := by
  refine ⟨by decide, ?_⟩
  exact (c7_word_present_case_gating lang_ab CharCase.Initial ("ab".toList) none dic_entry_ab
    { flw_char_case := CharCase.Upper, flw_word := "ab".toList, flw_flags := [] } []
    (by decide) (by decide)).1 rfl rfl

theorem char_utf8_len_pos (c : Char) : 0 < char_utf8_len c := by
  unfold char_utf8_len
  repeat' split
  all_goals omega

theorem utf8_len_eq_zero_iff (w : Str) : utf8_len w = 0 ↔ w = [] := by
  cases w with
  | nil => simp [utf8_len]
  | cons c rest =>
    simp only [utf8_len, List.map_cons, List.sum_cons]
    constructor
    · intro h
      have := char_utf8_len_pos c
      omega
    · intro h
      cases h

/-- C8: `check_token` accepts the empty word for every language, and a
non-empty word is accepted iff `check_decased_word` accepts the
classified key, or accepts the key after trimming from both ends every
character of the wordchars set (ASCII digits included when the digits
shortcut is set — both folded into `is_non_alphabetic_in_word`). -/
theorem c8_check_token_spec (U : UnicodeTable) (L : SpellLang) (w : Str) :
    check_token U L [] = true ∧
    (w ≠ [] →
      (check_token U L w = true ↔
        (check_decased_word U L (normalize_case U w).1 (normalize_case U w).2 none 0 0 = true ∨
         check_decased_word U L (normalize_case U w).1
           (trim_matches_pred (fun c => is_non_alphabetic_in_word L c) (normalize_case U w).2)
           none 0 0 = true))) := by
  refine ⟨rfl, ?_⟩
  intro hne
  unfold check_token
  have hz : (utf8_len w == 0) = false := by
    rw [beq_eq_false_iff_ne]
    intro h
    exact hne ((utf8_len_eq_zero_iff w).mp h)
  rw [if_neg (by simp [hz])]
  by_cases hA : check_decased_word U L (normalize_case U w).1 (normalize_case U w).2 none 0 0 = true
  · simp [hA]
  · simp [hA]

/-- Witness for C8, applied at a concrete word and an empty language. -/
theorem c8_check_token_spec_witness :
    (['a'] : Str) ≠ [] ∧
    (check_token toyU spell_lang_new ['a'] = true ↔
      (check_decased_word toyU spell_lang_new (normalize_case toyU ['a']).1
          (normalize_case toyU ['a']).2 none 0 0 = true ∨
       check_decased_word toyU spell_lang_new (normalize_case toyU ['a']).1
          (trim_matches_pred (fun c => is_non_alphabetic_in_word spell_lang_new c)
            (normalize_case toyU ['a']).2) none 0 0 = true)) :=
  ⟨by decide, (c8_check_token_spec toyU spell_lang_new ['a']).2 (by decide)⟩

/-- The call tree of `check_decased_word` as reached from `check_token`:
`top` is the two top-level calls (both made with counts 0, 0), and
`step` records one recursive call made from the entry loop of a group
`g`.  The side conditions of `step` are exactly the count guard checked
by the group loop before any entry of `g` can recurse; the further
entry-level filters (edge match, condition, subset membership) only
restrict reachability further, so every reachable call is covered. -/
inductive DecasedCall (L : SpellLang) : Nat → Nat → Prop where
  | top : DecasedCall L 0 0
  | step {pre suf : Nat} (g : AffixClass) :
      DecasedCall L pre suf →
      g ∈ L.slg_aff_groups →
      (if g.afc_is_pre then pre + 1 else pre) ≤ L.slg_prefix_max →
      (if g.afc_is_pre then suf else suf + 1) ≤ L.slg_suffix_max →
      DecasedCall L (if g.afc_is_pre then pre + 1 else pre) (if g.afc_is_pre then suf else suf + 1)

/-- C9: in every call of `check_decased_word` reachable from
`check_token`, the prefix count is at most `prefix_max`, the suffix
count at most `suffix_max`, so their sum is at most
`prefix_max + suffix_max`; when that bound is 3 (as with the defaults
1 + 2 of `SpellLang::new`, kept as 2 + 1 under COMPLEXPREFIXES) the sum
never exceeds 3.  Each recursion step increases the sum by exactly one,
which with the bound gives termination (the model `check_decased_word`
is total by the decreasing measure `prefix_max + suffix_max + 1 -
(prefix_ct + suffix_ct)`). -/
theorem c9_decased_call_bound (L : SpellLang) (pre suf : Nat)
    (h : DecasedCall L pre suf) :
    pre ≤ L.slg_prefix_max ∧ suf ≤ L.slg_suffix_max ∧
    pre + suf ≤ L.slg_prefix_max + L.slg_suffix_max ∧
    (L.slg_prefix_max + L.slg_suffix_max ≤ 3 → pre + suf ≤ 3) ∧
    spell_lang_new.slg_prefix_max + spell_lang_new.slg_suffix_max = 3 := by
  induction h with
  | top => refine ⟨Nat.zero_le _, Nat.zero_le _, Nat.zero_le _, fun _ => by omega, rfl⟩
  | step g _hc _hm hp hs ih =>
    refine ⟨hp, hs, by omega, fun hb => by omega, rfl⟩

/-- Witness for C9 at the root call of a fresh language. -/
theorem c9_decased_call_bound_witness :
    0 ≤ spell_lang_new.slg_prefix_max ∧ 0 ≤ spell_lang_new.slg_suffix_max ∧
    0 + 0 ≤ spell_lang_new.slg_prefix_max + spell_lang_new.slg_suffix_max ∧
    (spell_lang_new.slg_prefix_max + spell_lang_new.slg_suffix_max ≤ 3 → 0 + 0 ≤ 3) ∧
    spell_lang_new.slg_prefix_max + spell_lang_new.slg_suffix_max = 3 :=
  c9_decased_call_bound spell_lang_new 0 0 DecasedCall.top

/-- Rust `str::split(",")`, accumulating the current piece reversed. -/
def split_comma_go : Str → Str → List Str
  | [], cur => [cur.reverse]
  | c :: r, cur => if c == ',' then cur.reverse :: split_comma_go r [] else split_comma_go r (c :: cur)

/-- Rust `flags.split(",")` of the Numeric branch of `parse_flags`. -/
def split_comma (s : Str) : List Str := split_comma_go s []

/-- The character loop of the `FLAG long` branch of `Parser::parse_flags`.
State: characters left, the mutable `flag_chars`, the accumulated
`flag_vec`. -/
def parse_flags_double_go : Str → Str → List Str → List Str
  | [], _flagChars, flagVec => flagVec
  | c :: rest, flagChars, flagVec =>
    if flagChars.isEmpty then parse_flags_double_go rest [c] flagVec
    else parse_flags_double_go rest [] (flagVec ++ [flagChars ++ [c]])

/-- `Parser::parse_flags` of text_parser.rs. -/
def parse_flags (L : SpellLang) (flags : Str) : List Str :=
  if utf8_len flags == 0 then []
  else if L.slg_flag = FlagFormat.SingleUni then flags.map (fun c => [c])
  else if L.slg_flag = FlagFormat.DoubleChar then parse_flags_double_go flags [] []
  else if L.slg_flag = FlagFormat.Numeric then split_comma flags
  else []

/-- Consecutive character pairs, following the words of the claim: the
grouping `parse_flags` is stated to produce under `FLAG long`. -/
def flag_pairs : Str → List Str
  | [] => []
  | [_] => []
  | a :: b :: r => [a, b] :: flag_pairs r

theorem parse_flags_double_go_eq :
    ∀ (s : Str) (acc : List Str), parse_flags_double_go s [] acc = acc ++ flag_pairs s
  | [], acc => by simp [parse_flags_double_go, flag_pairs]
  | [a], acc => by simp [parse_flags_double_go, flag_pairs]
  | a :: b :: r, acc => by
    show parse_flags_double_go r [] (acc ++ [[a] ++ [b]]) = acc ++ flag_pairs (a :: b :: r)
    rw [parse_flags_double_go_eq r (acc ++ [[a] ++ [b]])]
    simp [flag_pairs]

theorem flag_pairs_length : ∀ s : Str, (flag_pairs s).length = s.length / 2
  | [] => rfl
  | [_] => by simp [flag_pairs]
  | a :: b :: r => by
    simp only [flag_pairs, List.length_cons, flag_pairs_length r]
    omega

theorem flag_pairs_two : ∀ s : Str, ∀ f ∈ flag_pairs s, f.length = 2
  | [], _, hf => by cases hf
  | [_], _, hf => by cases hf
  | a :: b :: r, f, hf => by
    rcases List.mem_cons.mp hf with h | h
    · subst h
      rfl
    · exact flag_pairs_two r f h

theorem flag_pairs_flatten : ∀ s : Str, (flag_pairs s).flatten = s.take (2 * (s.length / 2))
  | [] => rfl
  | [_] => by simp [flag_pairs]
  | a :: b :: r => by
    have h2 : 2 * ((r.length + 2) / 2) = 2 * (r.length / 2) + 2 := by omega
    simp only [flag_pairs, List.flatten_cons, flag_pairs_flatten r, List.length_cons]
    show a :: b :: (r.take (2 * (r.length / 2))) = (a :: b :: r).take (2 * ((r.length + 1 + 1) / 2))
    rw [show r.length + 1 + 1 = r.length + 2 from rfl, h2]
    rfl

/-- C10: under `FLAG long`, `parse_flags` groups the flag string into
consecutive character pairs: exactly `n / 2` two-character flags for an
`n`-character string, their concatenation being the even-length
prefix, so a trailing unpaired character is dropped; the function has
no note channel, so no parse note can be produced. -/
theorem c10_parse_flags_double (L : SpellLang) (s : Str)
    (h : L.slg_flag = FlagFormat.DoubleChar) :
    parse_flags L s = flag_pairs s ∧
    (parse_flags L s).length = s.length / 2 ∧
    (∀ f ∈ parse_flags L s, f.length = 2) ∧
    (parse_flags L s).flatten = s.take (2 * (s.length / 2)) := by
  have heq : parse_flags L s = flag_pairs s := by
    unfold parse_flags
    by_cases hz : (utf8_len s == 0) = true
    · have : s = [] := (utf8_len_eq_zero_iff s).mp (by simpa using hz)
      subst this
      simp [utf8_len, flag_pairs]
    · rw [if_neg hz, if_neg (by simp [h]), if_pos h]
      exact parse_flags_double_go_eq s []
  refine ⟨heq, ?_, ?_, ?_⟩
  · rw [heq, flag_pairs_length]
  · rw [heq]
    exact flag_pairs_two s
  · rw [heq, flag_pairs_flatten]

/-- Language with `FLAG long` for the C10 witness. -/
def lang_double : SpellLang := { spell_lang_new with slg_flag := FlagFormat.DoubleChar }

/-- Witness for C10 on the odd-length flag string ABC. -/
theorem c10_parse_flags_double_witness :
    lang_double.slg_flag = FlagFormat.DoubleChar ∧
    (parse_flags lang_double ("ABC".toList) = flag_pairs ("ABC".toList) ∧
     (parse_flags lang_double ("ABC".toList)).length = "ABC".toList.length / 2 ∧
     (∀ f ∈ parse_flags lang_double ("ABC".toList), f.length = 2) ∧
     (parse_flags lang_double ("ABC".toList)).flatten =
       "ABC".toList.take (2 * ("ABC".toList.length / 2))) :=
  ⟨rfl, c10_parse_flags_double lang_double ("ABC".toList) rfl⟩

/-- Rust `str::split_whitespace`: maximal runs of non-whitespace
characters, empty pieces omitted.  `cur` holds the current run
reversed. -/
def split_whitespace_go (U : UnicodeTable) : Str → Str → List Str
  | [], cur => if cur.isEmpty then [] else [cur.reverse]
  | c :: r, cur =>
    if U.isWhitespace c then
      (if cur.isEmpty then [] else [cur.reverse]) ++ split_whitespace_go U r []
    else split_whitespace_go U r (c :: cur)

/-- Rust `str::split_whitespace` on a modelled string. -/
def split_whitespace (U : UnicodeTable) (s : Str) : List Str := split_whitespace_go U s []

/-- Rust `str::rfind('/')`: position of the last slash, as a character
index (the source's byte index selects the same character). -/
def rfind_slash : Str → Option Nat
  | [] => none
  | c :: r =>
    match rfind_slash r with
    | some i => some (i + 1)
    | none => if c == '/' then some 0 else none

/-- One token of `Parser::parse_dic_entry`: the word and its flags, or
`none` for the `Incorrect slash at the start of word` case in which the
source pushes nothing. -/
def parse_dic_word (U : UnicodeTable) (L : SpellLang) (t : Str) : Option FlaggedWord :=
  match rfind_slash t with
  | some pos =>
    if pos != 0 then
      let beforeSlash := t.take pos
      if beforeSlash.getLast? == some '\\' then some (FlaggedWord.new U t [])
      else some (FlaggedWord.new U beforeSlash (parse_flags L (t.drop (pos + 1))))
    else none
  | none => some (FlaggedWord.new U t [])

/-- The word-collecting loop of `Parser::parse_dic_entry`: the words of
one dictionary line.  The unknown-flag histogram updates of the source
touch only `slg_noparse_flags` and the notes, not the words or the
dictionary, and are not modelled. -/
def parse_dic_entry_words (U : UnicodeTable) (L : SpellLang) (source : Str) : List FlaggedWord :=
  (split_whitespace U source).filterMap (parse_dic_word U L)

/-- `DicEntry::hash_key` of core_speller.rs. -/
def hash_key (d : DicEntry) : Str :=
  d.den_words.foldl
    (fun key fw => if utf8_len key == 0 then key ++ fw.flw_word else key ++ [' '] ++ fw.flw_word) []

/-- Rust `str::trim`: whitespace removed from both ends. -/
def str_trim (U : UnicodeTable) (s : Str) : Str :=
  ((s.dropWhile U.isWhitespace).reverse.dropWhile U.isWhitespace).reverse

/-- `Parser::parse_dic_line` of text_parser.rs, restricted to its effect
on the language (the note reporting controlled by `reporting_dupl` and
`reporting_other` writes only to the parse state). -/
def parse_dic_line (U : UnicodeTable) (L : SpellLang) (parsedLine : Str) (lineNo : Nat) :
    SpellLang :=
  let dicEntry : DicEntry :=
    { den_line_no := lineNo, den_source := parsedLine,
      den_words := parse_dic_entry_words U L parsedLine }
  if dicEntry.den_words.length == 0 then L
  else
    let key := hash_key dicEntry
    match alist_find L.slg_dic_hash key with
    | some existingEntry =>
      let L1 := { L with slg_dic_duplicated := L.slg_dic_duplicated + 1 }
      if str_trim U existingEntry.den_source == str_trim U dicEntry.den_source then L1
      else { L1 with slg_dic_hash := alist_insert L1.slg_dic_hash key dicEntry }
    | none => { L with slg_dic_hash := alist_insert L.slg_dic_hash key dicEntry }

theorem alist_find_insert_self {β : Type} (m : List (Str × β)) (k : Str) (v : β) :
    alist_find (alist_insert m k v) k = some v := by
  induction m with
  | nil => simp [alist_insert, alist_find]
  | cons p rest ih =>
    by_cases h : (p.1 == k) = true
    · simp [alist_insert, h, alist_find]
    · simp [alist_insert, h, alist_find, ih]

theorem alist_insert_keys_subset {β : Type} (m : List (Str × β)) (k : Str) (v : β) :
    ∀ x ∈ (alist_insert m k v).map Prod.fst, x ∈ m.map Prod.fst ∨ x = k := by
  induction m with
  | nil =>
    intro x hx
    simp [alist_insert] at hx
    exact Or.inr hx
  | cons p rest ih =>
    intro x hx
    by_cases h : (p.1 == k) = true
    · simp only [alist_insert, h, if_pos, List.map_cons, List.mem_cons] at hx
      rcases hx with hx | hx
      · exact Or.inr hx
      · exact Or.inl (by rw [List.map_cons]; exact List.mem_cons_of_mem _ hx)
    · simp only [alist_insert, h, Bool.false_eq_true, if_neg, not_false_iff, List.map_cons,
        List.mem_cons] at hx
      rcases hx with hx | hx
      · exact Or.inl (by rw [List.map_cons, hx]; exact List.mem_cons_self _ _)
      · rcases ih x hx with hh | hh
        · exact Or.inl (by rw [List.map_cons]; exact List.mem_cons_of_mem _ hh)
        · exact Or.inr hh

theorem alist_insert_nodup {β : Type} (m : List (Str × β)) (k : Str) (v : β)
    (h : (m.map Prod.fst).Nodup) : ((alist_insert m k v).map Prod.fst).Nodup := by
  induction m with
  | nil => simp [alist_insert]
  | cons p rest ih =>
    simp only [List.map_cons, List.nodup_cons] at h
    by_cases hk : (p.1 == k) = true
    · simp only [alist_insert, hk, if_pos, List.map_cons, List.nodup_cons]
      exact ⟨by rw [← beq_iff_eq.mp hk]; exact h.1, h.2⟩
    · simp only [alist_insert, hk, Bool.false_eq_true, if_neg, not_false_iff, List.map_cons,
        List.nodup_cons]
      refine ⟨?_, ih h.2⟩
      intro hmem
      rcases alist_insert_keys_subset rest k v p.1 hmem with hh | hh
      · exact h.1 hh
      · exact absurd (beq_iff_eq.mpr hh) (by simpa using hk)

/-- C1, the claim as stated, is false in its differing-sources half: two
lines with equal key `a` and different sources `a/X`, `a/Y`; after both
are parsed the stored entry is the one from line 2, not the first. -/
theorem c1_first_wins_counterexample :
    (alist_find (parse_dic_line toyU spell_lang_new ("a/X".toList) 1).slg_dic_hash
        "a".toList).map DicEntry.den_line_no = some 1 ∧
    str_trim toyU ("a/X".toList) ≠ str_trim toyU ("a/Y".toList) ∧
    (alist_find (parse_dic_line toyU (parse_dic_line toyU spell_lang_new ("a/X".toList) 1)
        "a/Y".toList 2).slg_dic_hash ("a".toList)).map DicEntry.den_line_no = some 2 := by
  decide

/-- C1 amended: on a key collision the later line is dropped (and only
the duplicate counter moves) exactly when the trimmed sources are
equal; when the sources differ the later entry replaces the stored one
(last wins, not first); in both regimes, and on fresh keys, the
dictionary keeps at most one entry per key. -/
theorem c1_dic_insert_policy (U : UnicodeTable) (L : SpellLang) (src : Str) (n : Nat)
    (hw : parse_dic_entry_words U L src ≠ []) :
    (∀ e, alist_find L.slg_dic_hash
        (hash_key ⟨n, src, parse_dic_entry_words U L src⟩) = some e →
      (str_trim U e.den_source = str_trim U src →
        (parse_dic_line U L src n).slg_dic_hash = L.slg_dic_hash ∧
        (parse_dic_line U L src n).slg_dic_duplicated = L.slg_dic_duplicated + 1) ∧
      (str_trim U e.den_source ≠ str_trim U src →
        alist_find (parse_dic_line U L src n).slg_dic_hash
            (hash_key ⟨n, src, parse_dic_entry_words U L src⟩) =
          some ⟨n, src, parse_dic_entry_words U L src⟩)) ∧
    (alist_find L.slg_dic_hash (hash_key ⟨n, src, parse_dic_entry_words U L src⟩) = none →
      alist_find (parse_dic_line U L src n).slg_dic_hash
          (hash_key ⟨n, src, parse_dic_entry_words U L src⟩) =
        some ⟨n, src, parse_dic_entry_words U L src⟩) ∧
    ((L.slg_dic_hash.map Prod.fst).Nodup →
      ((parse_dic_line U L src n).slg_dic_hash.map Prod.fst).Nodup) := by
  have hlen : ((parse_dic_entry_words U L src).length == 0) = false := by
    simp [List.length_eq_zero, hw]
  unfold parse_dic_line
  simp only [hlen, Bool.false_eq_true, if_neg, not_false_iff]
  refine ⟨?_, ?_, ?_⟩
  · intro e hfind
    simp only [hfind]
    constructor
    · intro heq
      rw [if_pos (beq_iff_eq.mpr heq)]
      exact ⟨rfl, rfl⟩
    · intro hne
      rw [if_neg (by simpa using hne)]
      exact alist_find_insert_self _ _ _
  · intro hfind
    simp only [hfind]
    exact alist_find_insert_self _ _ _
  · intro hnd
    cases hfind : alist_find L.slg_dic_hash
        (hash_key ⟨n, src, parse_dic_entry_words U L src⟩) with
    | none =>
      simp only [hfind]
      exact alist_insert_nodup _ _ _ hnd
    | some e =>
      simp only [hfind]
      by_cases heq : (str_trim U e.den_source == str_trim U src) = true
      · rw [if_pos heq]
        exact hnd
      · rw [if_neg heq]
        exact alist_insert_nodup _ _ _ hnd

/-- Witness for the amended C1: a fresh key inserted into the empty
language. -/
theorem c1_dic_insert_policy_witness :
    parse_dic_entry_words toyU spell_lang_new ("a/X".toList) ≠ [] ∧
    alist_find spell_lang_new.slg_dic_hash
      (hash_key ⟨1, "a/X".toList, parse_dic_entry_words toyU spell_lang_new ("a/X".toList)⟩) =
        none ∧
    alist_find (parse_dic_line toyU spell_lang_new ("a/X".toList) 1).slg_dic_hash
        (hash_key ⟨1, "a/X".toList, parse_dic_entry_words toyU spell_lang_new ("a/X".toList)⟩) =
      some ⟨1, "a/X".toList, parse_dic_entry_words toyU spell_lang_new ("a/X".toList)⟩ :=
  ⟨by decide, by decide,
    (c1_dic_insert_policy toyU spell_lang_new ("a/X".toList) 1 (by decide)).2.1 (by decide)⟩

/-- Lookup in the `prev_hash` map of `finalize_parsing` (key: index of
the next class). -/
def ph_find (ph : List (Nat × List Nat)) (k : Nat) : Option (List Nat) :=
  match ph with
  | [] => none
  | (k', v) :: rest => if k' == k then some v else ph_find rest k

/-- The `prev_hash` update of `finalize_parsing`: push `p` onto the
vector stored under `k`, or insert a fresh singleton vector. -/
def ph_add (ph : List (Nat × List Nat)) (k p : Nat) : List (Nat × List Nat) :=
  match ph with
  | [] => [(k, [p])]
  | (k', v) :: rest => if k' == k then (k', v ++ [p]) :: rest else (k', v) :: ph_add rest k p

/-- The `next_flags` selected by the `flags_defined` logic of
`finalize_parsing`: the continuation flags of the first entry of the
class, or empty when the class has no entries.  Later entries only
feed the unused `flags_uniform` check. -/
def class_next_flags (g : AffixClass) : List Str :=
  match g.afc_affixes with
  | [] => []
  | e :: _ => e.afe_next_flags

/-- Text of the `Unknown continuation flag in group {}: {next_flag}`
note of `finalize_parsing`. -/
def unknown_continuation_note (name flag : Str) : Str :=
  "Unknown continuation flag in group ".toList ++ name ++ ": ".toList ++ flag

/-- The first loop of `finalize_parsing`: every class name is inserted
into the flag map with kind FlagAffix, and the affixes are counted. -/
def finalize_pass1 (groups : List AffixClass) (fh : List (Str × (FlagType × Nat))) :
    List (Str × (FlagType × Nat)) × Nat :=
  groups.foldl
    (fun acc g => (alist_insert acc.1 g.afc_name (FlagType.FlagAffix, g.afc_ix),
                   acc.2 + g.afc_affixes.length))
    (fh, 0)

/-- The inner loop of the second pass of `finalize_parsing` over the
continuation flags of one class (`prevIx`, named `gname`). -/
def build_prev_flags (fh : List (Str × (FlagType × Nat))) (prevIx : Nat) (gname : Str) :
    List Str → List (Nat × List Nat) → List Str → List (Nat × List Nat) × List Str
  | [], ph, notes => (ph, notes)
  | f :: fs, ph, notes =>
    match alist_find fh f with
    | some tn => build_prev_flags fh prevIx gname fs (ph_add ph tn.2 prevIx) notes
    | none => build_prev_flags fh prevIx gname fs ph (notes ++ [unknown_continuation_note gname f])

/-- The second pass of `finalize_parsing` over all classes, building
`prev_hash` and the warning notes. -/
def build_prev_groups (fh : List (Str × (FlagType × Nat))) :
    List AffixClass → List (Nat × List Nat) → List Str → List (Nat × List Nat) × List Str
  | [], ph, notes => (ph, notes)
  | g :: gs, ph, notes =>
    match build_prev_flags fh g.afc_ix g.afc_name (class_next_flags g) ph notes with
    | (ph1, notes1) => build_prev_groups fh gs ph1 notes1

/-- The third loop of `finalize_parsing`: each `prev_hash` vector is
written into `afc_prev_flags` of the class it indexes.  The source
indexes `slg_aff_groups[next_ix]` directly and would panic on an
out-of-range index; the model leaves the groups unchanged there. -/
def apply_prev : List AffixClass → List (Nat × List Nat) → List AffixClass
  | gs, [] => gs
  | gs, (ix, vec) :: rest =>
    apply_prev
      (match gs.get? ix with
       | some g => gs.set ix { g with afc_prev_flags := vec }
       | none => gs) rest

/-- `Parser::finalize_parsing` of text_parser.rs: the updated language
and the returned notes. -/
def finalize_parsing (L : SpellLang) : SpellLang × List Str :=
  match finalize_pass1 L.slg_aff_groups L.slg_flag_hash with
  | (fh1, affixCt) =>
    match build_prev_groups fh1 L.slg_aff_groups [] [] with
    | (ph, notes) =>
      ({ L with slg_flag_hash := fh1, slg_affix_ct := affixCt,
                slg_aff_groups := apply_prev L.slg_aff_groups ph }, notes)

/-- Suffix class A with two entries whose continuation flags disagree:
the first entry has none, the second continues to class B. -/
def class_A : AffixClass :=
  { afc_name := ['A'], afc_ix := 0, afc_is_pre := false, afc_circum := true, afc_size := 2,
    afc_affixes := [AffixEntry.new [] [] [] [], AffixEntry.new [] [] [['B']] []],
    afc_prev_flags := [] }

/-- Empty suffix class B, the target named by class A's second entry. -/
def class_B : AffixClass :=
  { afc_name := ['B'], afc_ix := 1, afc_is_pre := false, afc_circum := true, afc_size := 0,
    afc_affixes := [], afc_prev_flags := [] }

/-- Language holding classes A and B for the C2 counterexample. -/
def lang_AB : SpellLang := { spell_lang_new with slg_aff_groups := [class_A, class_B] }

/-- C2, the claim as stated, is false: the continuation flag B of the
second entry of class A resolves in the flag map to class index 1, yet
after finalization class B's predecessor vector does not contain class
A's index 0, because only the first entry's continuation flags are
propagated. -/
theorem c2_continuation_counterexample :
    AffixEntry.new [] [] [['B']] [] ∈ class_A.afc_affixes ∧
    (AffixEntry.new [] [] [['B']] []).afe_next_flags = [['B']] ∧
    alist_find (finalize_parsing lang_AB).1.slg_flag_hash ['B'] =
      some (FlagType.FlagAffix, 1) ∧
    ((finalize_parsing lang_AB).1.slg_aff_groups.get? 1).map AffixClass.afc_prev_flags =
      some [] := by
  decide

theorem ph_find_add (ph : List (Nat × List Nat)) (k p j : Nat) :
    ph_find (ph_add ph k p) j =
      if j = k then some ((ph_find ph k).getD [] ++ [p]) else ph_find ph j := by
  induction ph with
  | nil =>
    by_cases hj : j = k
    · simp [ph_add, ph_find, hj]
    · have hkj : ¬k = j := fun h => hj h.symm
      simp [ph_add, ph_find, hj, hkj]
  | cons q rest ih =>
    by_cases h1 : q.1 = k
    · by_cases h2 : j = k
      · subst h2
        simp [ph_add, ph_find, h1]
      · have hkj : ¬k = j := fun h => h2 h.symm
        simp [ph_add, ph_find, h1, h2, hkj]
    · by_cases h2 : j = k
      · subst h2
        have h3 : ¬q.1 = j := h1
        simp [ph_add, ph_find, h1, h3, ih]
      · by_cases h3 : q.1 = j
        · simp [ph_add, ph_find, h1, h2, h3]
        · simp [ph_add, ph_find, h1, h2, h3, ih]

theorem ph_mem_add (ph : List (Nat × List Nat)) (k p j q : Nat)
    (h : q ∈ (ph_find ph j).getD []) : q ∈ (ph_find (ph_add ph k p) j).getD [] := by
  rw [ph_find_add]
  by_cases hj : j = k
  · subst hj
    simp only [if_pos rfl, Option.getD_some]
    exact List.mem_append_left _ h
  · simpa [hj] using h

theorem ph_add_mem_self (ph : List (Nat × List Nat)) (k p : Nat) :
    p ∈ (ph_find (ph_add ph k p) k).getD [] := by
  rw [ph_find_add]
  simp

theorem ph_add_keys_subset (ph : List (Nat × List Nat)) (k p : Nat) :
    ∀ x ∈ (ph_add ph k p).map Prod.fst, x ∈ ph.map Prod.fst ∨ x = k := by
  induction ph with
  | nil =>
    intro x hx
    simp [ph_add] at hx
    exact Or.inr hx
  | cons q rest ih =>
    intro x hx
    by_cases h : (q.1 == k) = true
    · simp only [ph_add, h, if_pos, List.map_cons, List.mem_cons] at hx
      rcases hx with hx | hx
      · exact Or.inl (by rw [List.map_cons, hx]; exact List.mem_cons_self _ _)
      · exact Or.inl (by rw [List.map_cons]; exact List.mem_cons_of_mem _ hx)
    · simp only [ph_add, h, Bool.false_eq_true, if_neg, not_false_iff, List.map_cons,
        List.mem_cons] at hx
      rcases hx with hx | hx
      · exact Or.inl (by rw [List.map_cons, hx]; exact List.mem_cons_self _ _)
      · rcases ih x hx with hh | hh
        · exact Or.inl (by rw [List.map_cons]; exact List.mem_cons_of_mem _ hh)
        · exact Or.inr hh

theorem ph_add_nodup (ph : List (Nat × List Nat)) (k p : Nat)
    (h : (ph.map Prod.fst).Nodup) : ((ph_add ph k p).map Prod.fst).Nodup := by
  induction ph with
  | nil => simp [ph_add]
  | cons q rest ih =>
    simp only [List.map_cons, List.nodup_cons] at h
    by_cases hk : (q.1 == k) = true
    · simp only [ph_add, hk, if_pos, List.map_cons, List.nodup_cons]
      exact h
    · simp only [ph_add, hk, Bool.false_eq_true, if_neg, not_false_iff, List.map_cons,
        List.nodup_cons]
      refine ⟨?_, ih h.2⟩
      intro hmem
      rcases ph_add_keys_subset rest k p q.1 hmem with hh | hh
      · exact h.1 hh
      · exact absurd (beq_iff_eq.mpr hh) (by simpa using hk)

theorem build_prev_flags_ph_mono (fh : List (Str × (FlagType × Nat))) (prevIx : Nat)
    (gname : Str) :
    ∀ (fs : List Str) (ph : List (Nat × List Nat)) (notes : List Str) (j q : Nat),
      q ∈ (ph_find ph j).getD [] →
      q ∈ (ph_find (build_prev_flags fh prevIx gname fs ph notes).1 j).getD [] := by
  intro fs
  induction fs with
  | nil => intro ph notes j q h; exact h
  | cons f fs' ih =>
    intro ph notes j q h
    unfold build_prev_flags
    cases hres : alist_find fh f with
    | some tn => exact ih _ _ j q (ph_mem_add ph tn.2 prevIx j q h)
    | none => exact ih _ _ j q h

theorem build_prev_flags_notes_mono (fh : List (Str × (FlagType × Nat))) (prevIx : Nat)
    (gname : Str) :
    ∀ (fs : List Str) (ph : List (Nat × List Nat)) (notes : List Str) (x : Str),
      x ∈ notes → x ∈ (build_prev_flags fh prevIx gname fs ph notes).2 := by
  intro fs
  induction fs with
  | nil => intro ph notes x h; exact h
  | cons f fs' ih =>
    intro ph notes x h
    unfold build_prev_flags
    cases hres : alist_find fh f with
    | some tn => exact ih _ _ x h
    | none => exact ih _ _ x (List.mem_append_left _ h)

theorem build_prev_flags_nodup (fh : List (Str × (FlagType × Nat))) (prevIx : Nat)
    (gname : Str) :
    ∀ (fs : List Str) (ph : List (Nat × List Nat)) (notes : List Str),
      (ph.map Prod.fst).Nodup →
      ((build_prev_flags fh prevIx gname fs ph notes).1.map Prod.fst).Nodup := by
  intro fs
  induction fs with
  | nil => intro ph notes h; exact h
  | cons f fs' ih =>
    intro ph notes h
    unfold build_prev_flags
    cases hres : alist_find fh f with
    | some tn => exact ih _ _ (ph_add_nodup ph tn.2 prevIx h)
    | none => exact ih _ _ h

theorem build_prev_flags_hit (fh : List (Str × (FlagType × Nat))) (prevIx : Nat)
    (gname : Str) :
    ∀ (fs : List Str) (ph : List (Nat × List Nat)) (notes : List Str) (f : Str)
      (t : FlagType) (j : Nat), f ∈ fs → alist_find fh f = some (t, j) →
      prevIx ∈ (ph_find (build_prev_flags fh prevIx gname fs ph notes).1 j).getD [] := by
  intro fs
  induction fs with
  | nil => intro ph notes f t j hmem; cases hmem
  | cons f' fs' ih =>
    intro ph notes f t j hmem hres
    rcases List.mem_cons.mp hmem with he | hm
    · subst he
      unfold build_prev_flags
      rw [hres]
      exact build_prev_flags_ph_mono fh prevIx gname fs' _ _ j prevIx
        (ph_add_mem_self ph j prevIx)
    · unfold build_prev_flags
      cases hres' : alist_find fh f' with
      | some tn => exact ih _ _ f t j hm hres
      | none => exact ih _ _ f t j hm hres

theorem build_prev_flags_note_hit (fh : List (Str × (FlagType × Nat))) (prevIx : Nat)
    (gname : Str) :
    ∀ (fs : List Str) (ph : List (Nat × List Nat)) (notes : List Str) (f : Str),
      f ∈ fs → alist_find fh f = none →
      unknown_continuation_note gname f ∈ (build_prev_flags fh prevIx gname fs ph notes).2 := by
  intro fs
  induction fs with
  | nil => intro ph notes f hmem; cases hmem
  | cons f' fs' ih =>
    intro ph notes f hmem hres
    rcases List.mem_cons.mp hmem with he | hm
    · subst he
      unfold build_prev_flags
      rw [hres]
      exact build_prev_flags_notes_mono fh prevIx gname fs' _ _ _
        (List.mem_append_right _ (List.mem_singleton.mpr rfl))
    · unfold build_prev_flags
      cases hres' : alist_find fh f' with
      | some tn => exact ih _ _ f hm hres
      | none => exact ih _ _ f hm hres

theorem build_prev_groups_ph_mono (fh : List (Str × (FlagType × Nat))) :
    ∀ (gs : List AffixClass) (ph : List (Nat × List Nat)) (notes : List Str) (j q : Nat),
      q ∈ (ph_find ph j).getD [] →
      q ∈ (ph_find (build_prev_groups fh gs ph notes).1 j).getD [] := by
  intro gs
  induction gs with
  | nil => intro ph notes j q h; exact h
  | cons g gs' ih =>
    intro ph notes j q h
    have h1 := build_prev_flags_ph_mono fh g.afc_ix g.afc_name (class_next_flags g)
      ph notes j q h
    unfold build_prev_groups
    rcases hbf : build_prev_flags fh g.afc_ix g.afc_name (class_next_flags g) ph notes
      with ⟨ph1, notes1⟩
    rw [hbf] at h1
    exact ih ph1 notes1 j q h1

theorem build_prev_groups_notes_mono (fh : List (Str × (FlagType × Nat))) :
    ∀ (gs : List AffixClass) (ph : List (Nat × List Nat)) (notes : List Str) (x : Str),
      x ∈ notes → x ∈ (build_prev_groups fh gs ph notes).2 := by
  intro gs
  induction gs with
  | nil => intro ph notes x h; exact h
  | cons g gs' ih =>
    intro ph notes x h
    have h1 := build_prev_flags_notes_mono fh g.afc_ix g.afc_name (class_next_flags g)
      ph notes x h
    unfold build_prev_groups
    rcases hbf : build_prev_flags fh g.afc_ix g.afc_name (class_next_flags g) ph notes
      with ⟨ph1, notes1⟩
    rw [hbf] at h1
    exact ih ph1 notes1 x h1

theorem build_prev_groups_nodup (fh : List (Str × (FlagType × Nat))) :
    ∀ (gs : List AffixClass) (ph : List (Nat × List Nat)) (notes : List Str),
      (ph.map Prod.fst).Nodup →
      ((build_prev_groups fh gs ph notes).1.map Prod.fst).Nodup := by
  intro gs
  induction gs with
  | nil => intro ph notes h; exact h
  | cons g gs' ih =>
    intro ph notes h
    have h1 := build_prev_flags_nodup fh g.afc_ix g.afc_name (class_next_flags g) ph notes h
    unfold build_prev_groups
    rcases hbf : build_prev_flags fh g.afc_ix g.afc_name (class_next_flags g) ph notes
      with ⟨ph1, notes1⟩
    rw [hbf] at h1
    exact ih ph1 notes1 h1

theorem build_prev_groups_hit (fh : List (Str × (FlagType × Nat))) :
    ∀ (gs : List AffixClass) (ph : List (Nat × List Nat)) (notes : List Str)
      (g : AffixClass) (f : Str) (t : FlagType) (j : Nat),
      g ∈ gs → f ∈ class_next_flags g → alist_find fh f = some (t, j) →
      g.afc_ix ∈ (ph_find (build_prev_groups fh gs ph notes).1 j).getD [] := by
  intro gs
  induction gs with
  | nil => intro ph notes g f t j hmem; cases hmem
  | cons g' gs' ih =>
    intro ph notes g f t j hmem hf hres
    rcases List.mem_cons.mp hmem with he | hm
    · subst he
      have h1 := build_prev_flags_hit fh g.afc_ix g.afc_name (class_next_flags g)
        ph notes f t j hf hres
      unfold build_prev_groups
      rcases hbf : build_prev_flags fh g.afc_ix g.afc_name (class_next_flags g) ph notes
        with ⟨ph1, notes1⟩
      rw [hbf] at h1
      exact build_prev_groups_ph_mono fh gs' ph1 notes1 j g.afc_ix h1
    · unfold build_prev_groups
      rcases hbf : build_prev_flags fh g'.afc_ix g'.afc_name (class_next_flags g') ph notes
        with ⟨ph1, notes1⟩
      exact ih ph1 notes1 g f t j hm hf hres

theorem build_prev_groups_note_hit (fh : List (Str × (FlagType × Nat))) :
    ∀ (gs : List AffixClass) (ph : List (Nat × List Nat)) (notes : List Str)
      (g : AffixClass) (f : Str),
      g ∈ gs → f ∈ class_next_flags g → alist_find fh f = none →
      unknown_continuation_note g.afc_name f ∈ (build_prev_groups fh gs ph notes).2 := by
  intro gs
  induction gs with
  | nil => intro ph notes g f hmem; cases hmem
  | cons g' gs' ih =>
    intro ph notes g f hmem hf hres
    rcases List.mem_cons.mp hmem with he | hm
    · subst he
      have h1 := build_prev_flags_note_hit fh g.afc_ix g.afc_name (class_next_flags g)
        ph notes f hf hres
      unfold build_prev_groups
      rcases hbf : build_prev_flags fh g.afc_ix g.afc_name (class_next_flags g) ph notes
        with ⟨ph1, notes1⟩
      rw [hbf] at h1
      exact build_prev_groups_notes_mono fh gs' ph1 notes1 _ h1
    · unfold build_prev_groups
      rcases hbf : build_prev_flags fh g'.afc_ix g'.afc_name (class_next_flags g') ph notes
        with ⟨ph1, notes1⟩
      exact ih ph1 notes1 g f hm hf hres

theorem apply_prev_length :
    ∀ (ph : List (Nat × List Nat)) (gs : List AffixClass),
      (apply_prev gs ph).length = gs.length := by
  intro ph
  induction ph with
  | nil => intro gs; rfl
  | cons q rest ih =>
    intro gs
    unfold apply_prev
    cases hg : gs.get? q.1 with
    | none => exact ih gs
    | some g => rw [ih]; exact List.length_set gs q.1 _

theorem apply_prev_untouched :
    ∀ (ph : List (Nat × List Nat)) (gs : List AffixClass) (j : Nat),
      j ∉ ph.map Prod.fst → (apply_prev gs ph).get? j = gs.get? j := by
  intro ph
  induction ph with
  | nil => intro gs j _; rfl
  | cons q rest ih =>
    intro gs j hj
    simp only [List.map_cons, List.mem_cons] at hj
    push_neg at hj
    unfold apply_prev
    cases hg : gs.get? q.1 with
    | none => exact ih gs j hj.2
    | some g =>
      rw [ih _ j hj.2]
      exact List.get?_set_ne _ gs (Ne.symm hj.1)

theorem apply_prev_found :
    ∀ (ph : List (Nat × List Nat)) (gs : List AffixClass) (j : Nat) (vec : List Nat),
      (ph.map Prod.fst).Nodup → ph_find ph j = some vec → j < gs.length →
      ∃ c, (apply_prev gs ph).get? j = some c ∧ c.afc_prev_flags = vec := by
  intro ph
  induction ph with
  | nil =>
    intro gs j vec _ hfind
    cases hfind
  | cons q rest ih =>
    intro gs j vec hnd hfind hlt
    simp only [List.map_cons, List.nodup_cons] at hnd
    by_cases hq : q.1 = j
    · have hvec : vec = q.2 := by
        unfold ph_find at hfind
        rw [if_pos (beq_iff_eq.mpr hq)] at hfind
        exact (Option.some.inj hfind).symm
      have hlt' : q.1 < gs.length := hq ▸ hlt
      have hg0 : gs.get? q.1 = some (gs.get ⟨q.1, hlt'⟩) := List.get?_eq_get hlt'
      unfold apply_prev
      rw [hg0]
      refine ⟨{ gs.get ⟨q.1, hlt'⟩ with afc_prev_flags := q.2 }, ?_, by rw [hvec]⟩
      rw [apply_prev_untouched rest _ j (hq ▸ hnd.1), ← hq]
      exact List.get?_set_eq_of_lt _ hlt'
    · have hfind' : ph_find rest j = some vec := by
        unfold ph_find at hfind
        rw [if_neg (by simpa using hq)] at hfind
        exact hfind
      unfold apply_prev
      cases hg : gs.get? q.1 with
      | none => exact ih gs j vec hnd.2 hfind' hlt
      | some g =>
        refine ih _ j vec hnd.2 hfind' ?_
        rw [List.length_set]
        exact hlt

/-- C2 amended: the continuation graph is built from the continuation
flags of the FIRST AffixEntry of each class only (`class_next_flags`);
for such a flag that resolves in the post-load flag map to an affix
class index `i`, the class at `i` receives the current class's index in
its `afc_prev_flags`, and an unresolved such flag yields the warning
note naming the class.  Continuation flags of entries after the first
are ignored, as the counterexample shows. -/
theorem c2_finalize_prev_flags (L : SpellLang) (g : AffixClass) (f : Str) (t : FlagType)
    (i : Nat) (hg : g ∈ L.slg_aff_groups) (hf : f ∈ class_next_flags g) :
    (alist_find (finalize_pass1 L.slg_aff_groups L.slg_flag_hash).1 f = some (t, i) →
      i < L.slg_aff_groups.length →
      ∃ c, (finalize_parsing L).1.slg_aff_groups.get? i = some c ∧
        g.afc_ix ∈ c.afc_prev_flags) ∧
    (alist_find (finalize_pass1 L.slg_aff_groups L.slg_flag_hash).1 f = none →
      unknown_continuation_note g.afc_name f ∈ (finalize_parsing L).2) := by
  constructor
  · intro hres hi
    have hfin1 : (finalize_parsing L).1.slg_aff_groups =
        apply_prev L.slg_aff_groups
          (build_prev_groups (finalize_pass1 L.slg_aff_groups L.slg_flag_hash).1
            L.slg_aff_groups [] []).1 := rfl
    have hmem := build_prev_groups_hit (finalize_pass1 L.slg_aff_groups L.slg_flag_hash).1
      L.slg_aff_groups [] [] g f t i hg hf hres
    have hnd := build_prev_groups_nodup (finalize_pass1 L.slg_aff_groups L.slg_flag_hash).1
      L.slg_aff_groups [] [] (by simp)
    cases hfind : ph_find (build_prev_groups (finalize_pass1 L.slg_aff_groups L.slg_flag_hash).1
        L.slg_aff_groups [] []).1 i with
    | none =>
      rw [hfind] at hmem
      simp at hmem
    | some vec =>
      rw [hfind] at hmem
      obtain ⟨c, hc1, hc2⟩ := apply_prev_found _ L.slg_aff_groups i vec hnd hfind hi
      rw [hfin1]
      refine ⟨c, hc1, ?_⟩
      rw [hc2]
      simpa using hmem
  · intro hres
    have hfin2 : (finalize_parsing L).2 =
        (build_prev_groups (finalize_pass1 L.slg_aff_groups L.slg_flag_hash).1
          L.slg_aff_groups [] []).2 := rfl
    rw [hfin2]
    exact build_prev_groups_note_hit _ L.slg_aff_groups [] [] g f hg hf hres

/-- Suffix class C whose single entry continues to class D. -/
def class_C : AffixClass :=
  { afc_name := ['C'], afc_ix := 0, afc_is_pre := false, afc_circum := true, afc_size := 1,
    afc_affixes := [AffixEntry.new [] [] [['D']] []], afc_prev_flags := [] }

/-- Empty suffix class D, target of class C's continuation flag. -/
def class_D : AffixClass :=
  { afc_name := ['D'], afc_ix := 1, afc_is_pre := false, afc_circum := true, afc_size := 0,
    afc_affixes := [], afc_prev_flags := [] }

/-- Language holding classes C and D for the C2 witness. -/
def lang_CD : SpellLang := { spell_lang_new with slg_aff_groups := [class_C, class_D] }

/-- Witness for the amended C2: class D's predecessors receive class C's
index. -/
theorem c2_finalize_prev_flags_witness :
    class_C ∈ lang_CD.slg_aff_groups ∧ ['D'] ∈ class_next_flags class_C ∧
    alist_find (finalize_pass1 lang_CD.slg_aff_groups lang_CD.slg_flag_hash).1 ['D'] =
      some (FlagType.FlagAffix, 1) ∧
    ∃ c, (finalize_parsing lang_CD).1.slg_aff_groups.get? 1 = some c ∧
      class_C.afc_ix ∈ c.afc_prev_flags :=
  ⟨by decide, by decide, by decide,
    (c2_finalize_prev_flags lang_CD class_C ['D'] FlagType.FlagAffix 1 (by decide)
      (by decide)).1 (by decide) (by decide)⟩
